import Mathlib

/-!
Shallow embedding of the Twitch chat code-watcher (`src/main.py`).

Strings are modelled as `List Char` (the Python code decodes the TCP stream
to `str` with `errors='ignore'` and works on `str` throughout).  The serve
loop of `main` is modelled as a pure function from the list of received
transport chunks to the list of observable events (lines sent back on the
socket, payloads forwarded to `process_message`).  The seen-code registry
(`seen_codes` under `lock`) is modelled as explicit state threaded through
a serialized sequence of `handle_code` invocations: the Python lock makes
check-and-insert one atomic critical section, so every concurrent execution
is observationally one such serialization.
-/

/-- Python `s.startswith(p)`: `p` is an initial segment of `s`. -/
def startsWith (p s : List Char) : Bool :=
  decide (s.take p.length = p)

/-- Python `s.split(sep, 1)` for a two-character separator `[a, b]`:
find the FIRST occurrence of `a :: b`, return the part strictly before it
and the part strictly after it; `none` when the separator does not occur.
Used with `['\r','\n']` for line framing (`buf.split('\r\n', 1)`) and with
`[' ',':']` for envelope stripping (`line.split(' :', 1)`). -/
def splitOn2 (a b : Char) : List Char → Option (List Char × List Char)
  | c :: d :: rest =>
    if c = a ∧ d = b then some ([], rest)
    else
      match splitOn2 a b (d :: rest) with
      | some (l, r) => some (c :: l, r)
      | none => none
  | _ => none

theorem splitOn2_length {a b : Char} :
    ∀ {s l r : List Char}, splitOn2 a b s = some (l, r) →
      s.length = l.length + 2 + r.length := by
  intro s
  induction s with
  | nil => intro l r h; simp [splitOn2] at h
  | cons c s ih =>
    intro l r h
    cases s with
    | nil => simp [splitOn2] at h
    | cons d rest =>
      rw [splitOn2] at h
      split at h
      · simp only [Option.some.injEq, Prod.mk.injEq] at h
        obtain ⟨hl, hr⟩ := h
        subst hl; subst hr
        simp; omega
      · cases hsp : splitOn2 a b (d :: rest) with
        | none => rw [hsp] at h; simp at h
        | some p =>
          obtain ⟨l', r'⟩ := p
          rw [hsp] at h
          simp only [Option.some.injEq, Prod.mk.injEq] at h
          obtain ⟨hl, hr⟩ := h
          subst hl; subst hr
          have := ih hsp
          simp at this ⊢
          omega

/-- The part before the first occurrence contains no occurrence, and the
whole splits as `l ++ a :: b :: r`. -/
theorem splitOn2_some_decomp {a b : Char} :
    ∀ {s l r : List Char}, splitOn2 a b s = some (l, r) →
      s = l ++ a :: b :: r ∧ splitOn2 a b l = none := by
  intro s
  induction s with
  | nil => intro l r h; simp [splitOn2] at h
  | cons c s ih =>
    intro l r h
    cases s with
    | nil => simp [splitOn2] at h
    | cons d rest =>
      rw [splitOn2] at h
      split at h
      · rename_i hab
        obtain ⟨ha, hb⟩ := hab
        simp only [Option.some.injEq, Prod.mk.injEq] at h
        obtain ⟨hl, hr⟩ := h
        subst hl; subst hr; subst ha; subst hb
        exact ⟨rfl, rfl⟩
      · rename_i hab
        cases hsp : splitOn2 a b (d :: rest) with
        | none => rw [hsp] at h; simp at h
        | some p =>
          obtain ⟨l', r'⟩ := p
          rw [hsp] at h
          simp only [Option.some.injEq, Prod.mk.injEq] at h
          obtain ⟨hl, hr⟩ := h
          subst hl; subst hr
          obtain ⟨hdec, hnone⟩ := ih hsp
          constructor
          · rw [List.cons_append, ← hdec]
          · cases l' with
            | nil => simp [splitOn2, hab]
            | cons x xs =>
              have hd : d = x := by
                rw [List.cons_append] at hdec
                exact (List.cons.injEq _ _ _ _ ▸ hdec).1
              rw [splitOn2, if_neg (hd ▸ hab), hnone]

/-- A prefix-occurrence carries over an append: the first occurrence in
`s` is still the first occurrence in `s ++ t`. -/
theorem splitOn2_append_some {a b : Char} :
    ∀ {s l r : List Char} (t : List Char), splitOn2 a b s = some (l, r) →
      splitOn2 a b (s ++ t) = some (l, r ++ t) := by
  intro s
  induction s with
  | nil => intro l r t h; simp [splitOn2] at h
  | cons c s ih =>
    intro l r t h
    cases s with
    | nil => simp [splitOn2] at h
    | cons d rest =>
      rw [splitOn2] at h
      split at h
      · rename_i hab
        simp only [Option.some.injEq, Prod.mk.injEq] at h
        obtain ⟨hl, hr⟩ := h
        subst hl; subst hr
        show splitOn2 a b (c :: d :: (rest ++ t)) = _
        rw [splitOn2, if_pos hab]
      · rename_i hab
        cases hsp : splitOn2 a b (d :: rest) with
        | none => rw [hsp] at h; simp at h
        | some p =>
          obtain ⟨l', r'⟩ := p
          rw [hsp] at h
          simp only [Option.some.injEq, Prod.mk.injEq] at h
          obtain ⟨hl, hr⟩ := h
          subst hl; subst hr
          have ih' := ih t hsp
          rw [List.cons_append] at ih'
          show splitOn2 a b (c :: d :: (rest ++ t)) = some (c :: l', r' ++ t)
          rw [splitOn2, if_neg hab, ih']

/-- When `s` has no occurrence of a two-character separator with distinct
characters, appending the separator and a tail puts the first occurrence
exactly at the seam. -/
theorem splitOn2_append_none {a b : Char} (hab : a ≠ b) :
    ∀ {s : List Char} (t : List Char), splitOn2 a b s = none →
      splitOn2 a b (s ++ a :: b :: t) = some (s, t) := by
  intro s
  induction s with
  | nil =>
    intro t _
    rw [List.nil_append, splitOn2, if_pos ⟨rfl, rfl⟩]
  | cons c s ih =>
    intro t h
    cases s with
    | nil =>
      show splitOn2 a b (c :: a :: b :: t) = _
      rw [splitOn2, if_neg (fun hc => hab hc.2)]
      rw [splitOn2, if_pos ⟨rfl, rfl⟩]
    | cons d rest =>
      rw [splitOn2] at h
      split at h
      · simp at h
      · rename_i hcd
        cases hsp : splitOn2 a b (d :: rest) with
        | some p => rw [hsp] at h; simp at h
        | none =>
          have ih' := ih t hsp
          rw [List.cons_append] at ih'
          show splitOn2 a b (c :: d :: (rest ++ a :: b :: t)) = some (c :: d :: rest, t)
          rw [splitOn2, if_neg hcd, ih']

/-- `while '\r\n' in buf: line, buf = buf.split('\r\n', 1)` —
extract every complete CRLF-terminated line from the buffer, in order,
returning the extracted lines and the remaining (terminator-free) buffer. -/
def frameBuf (s : List Char) : List (List Char) × List Char :=
  match h : splitOn2 '\r' '\n' s with
  | none => ([], s)
  | some (l, r) =>
    let p := frameBuf r
    (l :: p.1, p.2)
termination_by s.length
decreasing_by
  have := splitOn2_length h
  omega

theorem frameBuf_of_none {s : List Char} (h : splitOn2 '\r' '\n' s = none) :
    frameBuf s = ([], s) := by
  unfold frameBuf
  split
  · rfl
  · rename_i l r heq
    rw [h] at heq
    cases heq

theorem frameBuf_of_some {s l r : List Char} (h : splitOn2 '\r' '\n' s = some (l, r)) :
    frameBuf s = (l :: (frameBuf r).1, (frameBuf r).2) := by
  conv_lhs => rw [frameBuf]
  split
  · rename_i heq
    rw [h] at heq
    cases heq
  · rename_i l' r' heq
    rw [h] at heq
    simp only [Option.some.injEq, Prod.mk.injEq] at heq
    obtain ⟨hl, hr⟩ := heq
    subst hl; subst hr
    rfl

/-- The buffer remaining after line extraction contains no CRLF. -/
theorem frameBuf_rest (s : List Char) : splitOn2 '\r' '\n' (frameBuf s).2 = none := by
  have key : ∀ (n : Nat) (s : List Char), s.length ≤ n →
      splitOn2 '\r' '\n' (frameBuf s).2 = none := by
    intro n
    induction n with
    | zero =>
      intro s hs
      have : s = [] := List.length_eq_zero.mp (Nat.le_zero.mp hs)
      subst this
      rw [frameBuf_of_none (s := ([] : List Char)) (by decide)]
      decide
    | succ n ih =>
      intro s hs
      cases hsp : splitOn2 '\r' '\n' s with
      | none => rw [frameBuf_of_none hsp]; exact hsp
      | some p =>
        obtain ⟨l, r⟩ := p
        rw [frameBuf_of_some hsp]
        have := splitOn2_length hsp
        exact ih r (by omega)
  exact key s.length s le_rfl

/-- Extraction commutes with appending further input: extract from `s`,
then extract from the leftover plus the new input. -/
theorem frameBuf_append (s t : List Char) :
    frameBuf (s ++ t) =
      ((frameBuf s).1 ++ (frameBuf ((frameBuf s).2 ++ t)).1,
       (frameBuf ((frameBuf s).2 ++ t)).2) := by
  have key : ∀ (n : Nat) (s t : List Char), s.length ≤ n →
      frameBuf (s ++ t) =
        ((frameBuf s).1 ++ (frameBuf ((frameBuf s).2 ++ t)).1,
         (frameBuf ((frameBuf s).2 ++ t)).2) := by
    intro n
    induction n with
    | zero =>
      intro s t hs
      have : s = [] := List.length_eq_zero.mp (Nat.le_zero.mp hs)
      subst this
      have h0 : frameBuf ([] : List Char) = ([], []) := frameBuf_of_none (by decide)
      simp [h0]
    | succ n ih =>
      intro s t hs
      cases hsp : splitOn2 '\r' '\n' s with
      | none =>
        rw [frameBuf_of_none hsp]
        simp
      | some p =>
        obtain ⟨l, r⟩ := p
        rw [frameBuf_of_some hsp]
        rw [frameBuf_of_some (splitOn2_append_some t hsp)]
        have hlen := splitOn2_length hsp
        rw [ih r t (by omega)]
        simp
  exact key s.length s t le_rfl

/-- Concatenation of the received transport chunks. -/
def concatChunks : List (List Char) → List Char
  | [] => []
  | c :: cs => c ++ concatChunks cs

/-- The serve loop's framing behaviour, lines only: on each received chunk,
append it to the buffer and extract every complete line; at end-of-stream
(`recv` returning empty, or a reset) stop, discarding any unterminated
buffer remainder. -/
def framer : List (List Char) → List Char → List (List Char)
  | [], _ => []
  | c :: cs, buf =>
    let p := frameBuf (buf ++ c)
    p.1 ++ framer cs p.2

/-- The lines produced by chunkwise framing are exactly the lines extracted
from the concatenation of all chunks. -/
theorem framer_concat (cs : List (List Char)) :
    ∀ buf, splitOn2 '\r' '\n' buf = none →
      framer cs buf = (frameBuf (buf ++ concatChunks cs)).1 := by
  induction cs with
  | nil =>
    intro buf h
    show ([] : List (List Char)) = (frameBuf (buf ++ [])).1
    rw [List.append_nil, frameBuf_of_none h]
  | cons c cs ih =>
    intro buf h
    show (frameBuf (buf ++ c)).1 ++ framer cs (frameBuf (buf ++ c)).2 = _
    rw [ih _ (frameBuf_rest (buf ++ c))]
    rw [show buf ++ concatChunks (c :: cs) = (buf ++ c) ++ concatChunks cs by simp [concatChunks]]
    rw [frameBuf_append (buf ++ c) (concatChunks cs)]

/-- Observable actions of the serve loop: a line sent back on the socket
(`send(s, msg)`, which appends CRLF on the wire), or a chat payload
forwarded to `process_message`. -/
inductive Event where
  | send (msg : List Char)
  | forward (payload : List Char)
deriving DecidableEq

/-- `send` appends the protocol line terminator before writing to the
socket (`sock.send((msg + '\r\n').encode('utf-8'))`). -/
def sendWire (msg : List Char) : List Char :=
  msg ++ ['\r', '\n']

/-- The fixed keepalive acknowledgment line (`'PONG :tmi.twitch.tv'`). -/
def pongLine : List Char := "PONG :tmi.twitch.tv".data

/-- The body of the inner `while '\r\n' in buf` loop applied to one
extracted line: empty lines are skipped (`if not line: continue`); a line
starting with `'PING'` is answered with the fixed PONG line; otherwise
`line.split(' :', 1)` is applied and, when the separator occurs, the part
after its first occurrence is forwarded to `process_message`. -/
def processLine (line : List Char) : List Event :=
  if line = [] then []
  else if startsWith "PING".data line then [Event.send pongLine]
  else
    match splitOn2 ' ' ':' line with
    | some (_, payload) => [Event.forward payload]
    | none => []

/-- Events of a list of framed lines, processed strictly in order. -/
def linesEvents : List (List Char) → List Event
  | [] => []
  | l :: ls => processLine l ++ linesEvents ls

/-- The serve loop of `main`: for each received transport chunk, extend the
buffer, extract every complete line and process each immediately; stop at
end-of-stream (empty `recv` or `ConnectionResetError`). -/
def serveLoop : List Char → List (List Char) → List Event
  | _, [] => []
  | buf, c :: cs =>
    let p := frameBuf (buf ++ c)
    linesEvents p.1 ++ serveLoop p.2 cs

/-- Classification of a detected code by `handle_code`: `firstSeen` when
the code was absent from `seen_codes` (and is inserted), `repeatSeen`
when already present. -/
inductive Classification where
  | firstSeen
  | repeatSeen
deriving DecidableEq

/-- `handle_code`: under `lock`, check membership in `seen_codes` and
insert when absent.  The registry is modelled as the list of inserted
codes; the Python `set` is this list up to membership. Returns the
classification (which drives the notifier side effects) and the updated
registry. -/
def handle_code (seen : List (List Char)) (code : List Char) :
    Classification × List (List Char) :=
  if code ∈ seen then (Classification.repeatSeen, seen)
  else (Classification.firstSeen, code :: seen)

/-- A serialized sequence of `handle_code` invocations (the Python `lock`
serializes every check-and-insert, so any concurrent execution is one such
sequence).  Returns each invocation's code and classification, in order,
with the final registry. -/
def runCodes : List (List Char) → List (List Char) →
    List (List Char × Classification) × List (List Char)
  | [], seen => ([], seen)
  | x :: xs, seen =>
    let p := handle_code seen x
    let q := runCodes xs p.2
    ((x, p.1) :: q.1, q.2)

/-- The classifications returned by the invocations on one particular
code `c`, in invocation order. -/
def traceFor (c : List Char) (codes seen : List (List Char)) :
    List Classification :=
  (((runCodes codes seen).1.filter (fun p => decide (p.1 = c))).map Prod.snd)

/-- A character of the class `[A-Z0-9]` in the default code pattern. -/
def isUpperAlnum (c : Char) : Bool :=
  decide (('A' ≤ c ∧ c ≤ 'Z') ∨ ('0' ≤ c ∧ c ≤ '9'))

/-- A regex word character (`\w`, i.e. `[A-Za-z0-9_]`) as used by the
word-boundary assertions `\b` of the default pattern (all inputs here are
ASCII, so the Unicode definition coincides). -/
def isWordChar (c : Char) : Bool :=
  decide (('A' ≤ c ∧ c ≤ 'Z') ∨ ('a' ≤ c ∧ c ≤ 'z') ∨ ('0' ≤ c ∧ c ≤ '9') ∨ c = '_')

/-- Match the core of the default pattern
`[A-Z0-9]{4}(?:-[A-Z0-9]{4}){3}` at the head of the list: on success
return the 19 matched characters and the remaining characters.  The
pattern is of fixed shape, so the match is unambiguous. -/
def grabCore : List Char → Option (List Char × List Char)
  | a1 :: a2 :: a3 :: a4 :: '-' :: b1 :: b2 :: b3 :: b4 :: '-' ::
      c1 :: c2 :: c3 :: c4 :: '-' :: d1 :: d2 :: d3 :: d4 :: rest =>
    if [a1, a2, a3, a4, b1, b2, b3, b4, c1, c2, c3, c4, d1, d2, d3, d4].all isUpperAlnum then
      some ([a1, a2, a3, a4, '-', b1, b2, b3, b4, '-',
             c1, c2, c3, c4, '-', d1, d2, d3, d4], rest)
    else none
  | _ => none

/-- The trailing `\b` of the default pattern: the character following the
match (if any) must not be a word character (the final matched character
is always a word character). -/
def tailBoundary : List Char → Bool
  | [] => true
  | d :: _ => !isWordChar d

/-- `code_regex.finditer(msg)` for the default pattern: scan left to
right; at each position where the preceding character is not a word
character (the leading `\b`), try the fixed-shape core; on success with
the trailing `\b` satisfied, yield the match and resume scanning after
it (non-overlapping), otherwise advance one character.  `prevWord` is
whether the preceding character is a word character (false at the start
of the string); `skip` counts remaining characters of a yielded match
still to be stepped over. -/
def findAllAux : List Char → Bool → Nat → List (List Char)
  | [], _, _ => []
  | c :: rest, prevWord, skip + 1 => findAllAux rest (isWordChar c) skip
  | c :: rest, prevWord, 0 =>
    if prevWord then findAllAux rest (isWordChar c) 0
    else
      match grabCore (c :: rest) with
      | some (m, r) =>
        if tailBoundary r then m :: findAllAux rest (isWordChar c) 18
        else findAllAux rest (isWordChar c) 0
      | none => findAllAux rest (isWordChar c) 0

/-- All non-overlapping matches of the default pattern, left to right. -/
def findAll (s : List Char) : List (List Char) :=
  findAllAux s false 0

/-- Python `str.upper()` restricted to ASCII (all inputs considered here
are ASCII). -/
def pyUpper (c : Char) : Char :=
  if 'a' ≤ c ∧ c ≤ 'z' then Char.ofNat (c.toNat - 32) else c

/-- `process_message`: uppercase the payload, run the pattern over it and
hand every match to `handle_code` in order, threading the registry. -/
def process_message (msg : List Char) (seen : List (List Char)) :
    List (List Char × Classification) × List (List Char) :=
  runCodes (findAll (msg.map pyUpper)) seen

/-- Number of notifier invocations for a run: the notifier chain
(clipboard copy, detection report, beep, optional auto-entry) runs exactly
when `handle_code` classified the code as first-seen. -/
def notifCount (rs : List (List Char × Classification)) : Nat :=
  (rs.filter (fun p => decide (p.2 = Classification.firstSeen))).length

/-- Modelled from the spec (for comparison with the implementation):
"chat payload is the substring after the last occurrence of a fixed
two-character delimiter sequence within the line".  Returns the substring
after the LAST occurrence of `' :'`, or `none` when the delimiter is
absent. -/
def specPayloadAfterLastDelim (s : List Char) : Option (List Char) :=
  match splitOn2 ':' ' ' s.reverse with
  | none => none
  | some (before, _) => some before.reverse

/-- `CHANNEL`: prepend `'#'` to the configured channel when nonempty and
not already starting with `'#'`. -/
def channelOf (raw : List Char) : List Char :=
  if raw ≠ [] ∧ ¬ startsWith "#".data raw then '#' :: raw else raw

/-- The module-level configuration checks: `TWITCH_NICK`, `TWITCH_OAUTH`
and the normalized channel must be nonempty, and the token must start
with `oauth:`; otherwise the process calls `sys.exit(1)` before any
connection attempt. -/
def configOk (nick token chraw : List Char) : Bool :=
  decide (nick ≠ []) && decide (token ≠ []) && decide (channelOf chraw ≠ []) &&
    startsWith "oauth:".data token

/-- Outcome of a run of the process. -/
inductive MainResult where
  | configExit
  | selfTestExit (results : List (List Char × Classification))
  | connectCrash
  | normalExit (events : List Event)
deriving DecidableEq

/-- Process exit code for each outcome: `sys.exit(1)` on bad
configuration; an uncaught connect exception terminates the interpreter
with code 1; the self-test path and a serve loop ending in disconnection
(empty read or reset) return from `main` normally, exit code 0. -/
def exitCode : MainResult → Nat
  | MainResult.configExit => 1
  | MainResult.selfTestExit _ => 0
  | MainResult.connectCrash => 1
  | MainResult.normalExit _ => 0

/-- The whole program: module-level config validation, then `main`.
With `NO_CONNECT=1` (`noConnect`), the test message is fed once through
`process_message` against a fresh registry and `main` returns without
connecting; otherwise the socket is opened (`connectOk` says whether the
transport can be opened — failure raises an uncaught `ConnectionError`),
the three handshake lines are sent, and the serve loop runs over the
received chunks until end-of-stream. -/
def mainModel (nick token chraw : List Char) (noConnect : Bool)
    (testMsg : List Char) (connectOk : Bool) (chunks : List (List Char)) :
    MainResult :=
  if ¬ configOk nick token chraw then MainResult.configExit
  else if noConnect then MainResult.selfTestExit (process_message testMsg []).1
  else if ¬ connectOk then MainResult.connectCrash
  else MainResult.normalExit (serveLoop [] chunks)

/-- Auxiliary counting of occurrences of a code in a list. -/
def occs (c : List Char) : List (List Char) → Nat
  | [] => 0
  | x :: xs => (if x = c then 1 else 0) + occs c xs

theorem occs_eq_zero_of_not_mem {c : List Char} :
    ∀ {R : List (List Char)}, c ∉ R → occs c R = 0 := by
  intro R
  induction R with
  | nil => intro _; rfl
  | cons x xs ih =>
    intro h
    have hx : x ≠ c := fun he => h (he ▸ List.mem_cons_self x xs)
    have hxs : c ∉ xs := fun he => h (List.mem_cons_of_mem x he)
    simp [occs, hx, ih hxs]

theorem traceFor_cons (c x : List Char) (xs R : List (List Char)) :
    traceFor c (x :: xs) R =
      (if x = c then [(handle_code R x).1] else []) ++
        traceFor c xs (handle_code R x).2 := by
  by_cases hx : x = c <;> simp [traceFor, runCodes, hx]

/-- Once the code is in the registry, every later invocation on it
returns `repeatSeen`. -/
theorem traceFor_mem (c : List Char) :
    ∀ (codes R : List (List Char)), c ∈ R →
      traceFor c codes R = List.replicate (occs c codes) Classification.repeatSeen := by
  intro codes
  induction codes with
  | nil => intro R _; simp [traceFor, runCodes, occs]
  | cons x xs ih =>
    intro R hc
    rw [traceFor_cons]
    by_cases hx : x = c
    · subst hx
      rw [show handle_code R x = (Classification.repeatSeen, R) from by
        simp [handle_code, hc]]
      simp [occs, ih R hc]
      rw [Nat.add_comm, List.replicate_succ]
    · have hR' : c ∈ (handle_code R x).2 := by
        by_cases hxR : x ∈ R <;> simp [handle_code, hxR, hc]
      simp [hx, occs, ih _ hR']

theorem runCodes_registry_mono :
    ∀ (codes R : List (List Char)), R ⊆ (runCodes codes R).2 := by
  intro codes
  induction codes with
  | nil => intro R; exact fun _ h => h
  | cons x xs ih =>
    intro R
    have h1 : R ⊆ (handle_code R x).2 := by
      by_cases hxR : x ∈ R
      · simp [handle_code, hxR]
      · simp [handle_code, hxR]
    exact h1.trans (ih (handle_code R x).2)

theorem runCodes_occs_le_one (c : List Char) :
    ∀ (codes R : List (List Char)), occs c R ≤ 1 →
      occs c (runCodes codes R).2 ≤ 1 := by
  intro codes
  induction codes with
  | nil => intro R h; exact h
  | cons x xs ih =>
    intro R h
    apply ih
    by_cases hxR : x ∈ R
    · simpa [handle_code, hxR] using h
    · by_cases hx : x = c
      · subst hx
        have := occs_eq_zero_of_not_mem (c := x) hxR
        simp [handle_code, hxR, occs, this]
      · simpa [handle_code, hxR, occs, hx] using h

/-- C1 (counterexample): on the line `"a :b :c"` (no keepalive marker, the
two-character delimiter `' :'` occurring twice), the serve loop forwards
`"b :c"` — the suffix after the FIRST occurrence (`line.split(' :', 1)`) —
while the suffix after the LAST occurrence is `"c"`; the claim's
last-occurrence rule does not describe the code. -/
theorem payload_last_delim_counterexample :
    processLine "a :b :c".data = [Event.forward "b :c".data] ∧
    specPayloadAfterLastDelim "a :b :c".data = some "c".data ∧
    "b :c".data ≠ "c".data := by
  refine ⟨by decide, ?_, by decide⟩
  decide

/-- C1 (amended): for every protocol line that is not a keepalive probe,
if the delimiter `' :'` occurs in the line, the payload forwarded to the
matcher is exactly the substring after the FIRST occurrence of `' :'`
(the line being `pre ++ ' ' :: ':' :: post` with `pre` delimiter-free);
if the delimiter is absent, nothing is forwarded for that line. -/
theorem payload_after_first_delim (pre post l : List Char)
    (hpre : splitOn2 ' ' ':' pre = none)
    (hping1 : startsWith "PING".data (pre ++ ' ' :: ':' :: post) = false)
    (hl : l ≠ []) (hping2 : startsWith "PING".data l = false)
    (hnd : splitOn2 ' ' ':' l = none) :
    processLine (pre ++ ' ' :: ':' :: post) = [Event.forward post] ∧
    processLine l = [] := by
  constructor
  · have hsp := splitOn2_append_none (by decide : (' ' : Char) ≠ ':') post hpre
    have hne : pre ++ ' ' :: ':' :: post ≠ [] := by simp
    rw [processLine, if_neg hne, if_neg (by simp [hping1]), hsp]
  · rw [processLine, if_neg hl, if_neg (by simp [hping2]), hnd]

theorem payload_after_first_delim_witness :
    processLine ("a".data ++ ' ' :: ':' :: "c".data) = [Event.forward "c".data] ∧
    processLine "b".data = [] :=
  payload_after_first_delim "a".data "c".data "b".data (by decide) (by decide)
    (by decide) (by decide) (by decide)

/-- C2: for any two sequences of non-empty transport chunks with the same
concatenation, chunkwise framing yields the same ordered sequence of
complete lines, regardless of where the chunk boundaries fall (including
between the CR and the LF of a terminator). -/
theorem framer_chunking_invariant (cs1 cs2 : List (List Char))
    (h : concatChunks cs1 = concatChunks cs2)
    (hne1 : ∀ c ∈ cs1, c ≠ []) (hne2 : ∀ c ∈ cs2, c ≠ []) :
    framer cs1 [] = framer cs2 [] := by
  rw [framer_concat cs1 [] (by decide), framer_concat cs2 [] (by decide),
    List.nil_append, List.nil_append, h]

theorem framer_chunking_invariant_witness :
    framer ["ab\r".data, "\ncd\r\n".data] [] =
      framer ["ab\r\ncd\r".data, "\n".data] [] :=
  framer_chunking_invariant ["ab\r".data, "\ncd\r\n".data]
    ["ab\r\ncd\r".data, "\n".data] (by decide) (by decide) (by decide)

/-- C3: for every code `c` absent from the initial registry and every
serialized sequence of `handle_code` invocations (the `lock` serializes
the check-and-insert critical sections, so every interleaving of
concurrent callers is one such sequence), the invocations on `c` return
`firstSeen` for exactly the first one and `repeatSeen` for every later
one; the registry only ever grows and holds `c` at most once. -/
theorem classify_first_seen_once (codes R0 : List (List Char)) (c : List Char)
    (hc : c ∉ R0) :
    traceFor c codes R0 =
      (if c ∈ codes then
        Classification.firstSeen ::
          List.replicate (occs c codes - 1) Classification.repeatSeen
      else []) ∧
    R0 ⊆ (runCodes codes R0).2 ∧
    occs c (runCodes codes R0).2 ≤ 1 := by
  refine ⟨?_, runCodes_registry_mono codes R0, ?_⟩
  · induction codes generalizing R0 with
    | nil => simp [traceFor, runCodes]
    | cons x xs ih =>
      rw [traceFor_cons]
      by_cases hx : x = c
      · subst hx
        rw [show handle_code R0 x = (Classification.firstSeen, x :: R0) from by
          simp [handle_code, hc]]
        have hmem : x ∈ x :: R0 := List.mem_cons_self x R0
        simp [traceFor_mem x xs (x :: R0) hmem, occs]
      · have hcx : ¬ c = x := fun he => hx he.symm
        have hc' : c ∉ (handle_code R0 x).2 := by
          by_cases hxR : x ∈ R0 <;>
            simp [handle_code, hxR, List.mem_cons, hcx, hc]
        have hmm : c ∈ x :: xs ↔ c ∈ xs := by
          simp [List.mem_cons, hcx]
        simp [hx, ih _ hc', hmm, occs]
  · exact runCodes_occs_le_one c codes R0
      (by rw [occs_eq_zero_of_not_mem hc]; omega)

theorem classify_first_seen_once_witness :
    ("AB".data ∉ ([] : List (List Char))) ∧
    (traceFor "AB".data ["AB".data, "AB".data] [] =
      (if "AB".data ∈ ["AB".data, "AB".data] then
        Classification.firstSeen ::
          List.replicate (occs "AB".data ["AB".data, "AB".data] - 1)
            Classification.repeatSeen
      else []) ∧
    ([] : List (List Char)) ⊆ (runCodes ["AB".data, "AB".data] []).2 ∧
    occs "AB".data (runCodes ["AB".data, "AB".data] []).2 ≤ 1) :=
  ⟨by decide, classify_first_seen_once ["AB".data, "AB".data] [] "AB".data (by decide)⟩

/-- C4: when a chunk starts with a complete line beginning with the
keepalive marker `'PING'`, the serve loop sends exactly one fixed
acknowledgment line (`'PONG :tmi.twitch.tv'`) and sends it before any
event of any further buffered line — no matter how many content lines
follow in the same transport chunk (`rest`) or in later chunks (`cs`). -/
theorem keepalive_ack_immediate (l rest : List Char) (cs : List (List Char))
    (hping : startsWith "PING".data l = true)
    (hl : splitOn2 '\r' '\n' l = none) :
    serveLoop [] ((l ++ '\r' :: '\n' :: rest) :: cs) =
      Event.send pongLine ::
        (linesEvents (frameBuf rest).1 ++ serveLoop (frameBuf rest).2 cs) := by
  have hsp := splitOn2_append_none (by decide : ('\r' : Char) ≠ '\n') rest hl
  have hl0 : l ≠ [] := by
    intro h
    rw [h] at hping
    exact absurd hping (by decide)
  show linesEvents (frameBuf ([] ++ (l ++ '\r' :: '\n' :: rest))).1 ++
      serveLoop (frameBuf ([] ++ (l ++ '\r' :: '\n' :: rest))).2 cs = _
  rw [List.nil_append, frameBuf_of_some hsp]
  show processLine l ++ linesEvents (frameBuf rest).1 ++ _ = _
  rw [processLine, if_neg hl0, if_pos hping]
  simp

theorem keepalive_ack_immediate_witness :
    serveLoop [] (("PING :tmi.twitch.tv".data ++ '\r' :: '\n' :: "hello :world\r\n".data) :: []) =
      Event.send pongLine ::
        (linesEvents (frameBuf "hello :world\r\n".data).1 ++
          serveLoop (frameBuf "hello :world\r\n".data).2 []) :=
  keepalive_ack_immediate "PING :tmi.twitch.tv".data "hello :world\r\n".data []
    (by decide) (by decide)

/-- C5: with the default pattern, `extract` (uppercase, then all
non-overlapping matches left to right) yields exactly one match
`ABCD-1234-EFGH-5678` on `"ABCD-1234-EFGH-5678 grab it"`, no match on
`"no code here"`, and two matches on
`"X1X1-X1X1-X1X1-X1X1 and X1X1-X1X1-X1X1-X1X1"`. -/
theorem extract_default_examples :
    findAll (("ABCD-1234-EFGH-5678 grab it".data).map pyUpper) =
      ["ABCD-1234-EFGH-5678".data] ∧
    findAll (("no code here".data).map pyUpper) = [] ∧
    findAll (("X1X1-X1X1-X1X1-X1X1 and X1X1-X1X1-X1X1-X1X1".data).map pyUpper) =
      ["X1X1-X1X1-X1X1-X1X1".data, "X1X1-X1X1-X1X1-X1X1".data] := by
  refine ⟨by decide, by decide, by decide⟩

/-- C6: a terminator immediately following another terminator yields the
empty line (the framer does not skip it), and an unterminated trailing
fragment (`s`, CRLF-free) still in the buffer at end-of-stream is never
yielded as a line. -/
theorem framer_empty_line_and_tail (p s : List Char)
    (hp : splitOn2 '\r' '\n' p = none)
    (hs : splitOn2 '\r' '\n' s = none) :
    framer [p ++ '\r' :: '\n' :: '\r' :: '\n' :: s] [] = [p, []] := by
  have hsp1 := splitOn2_append_none (by decide : ('\r' : Char) ≠ '\n')
    ('\r' :: '\n' :: s) hp
  have hsp2 : splitOn2 '\r' '\n' ('\r' :: '\n' :: s) = some ([], s) := by
    rw [splitOn2, if_pos ⟨rfl, rfl⟩]
  show (frameBuf ([] ++ (p ++ '\r' :: '\n' :: '\r' :: '\n' :: s))).1 ++
      framer [] (frameBuf ([] ++ (p ++ '\r' :: '\n' :: '\r' :: '\n' :: s))).2 = _
  rw [List.nil_append, frameBuf_of_some hsp1, frameBuf_of_some hsp2,
    frameBuf_of_none hs]
  rfl

theorem framer_empty_line_and_tail_witness :
    framer ["a".data ++ '\r' :: '\n' :: '\r' :: '\n' :: "b".data] [] =
      ["a".data, []] :=
  framer_empty_line_and_tail "a".data "b".data (by decide) (by decide)

/-- C7 (counterexample): with valid configuration, the transport opening
fine and closing immediately after the handshake (zero bytes received
before any content line), the code prints `Disconnected.`, leaves `main`
normally and the process exits ZERO — there is no `AuthError`-class
failure distinct from a normal end of session. -/
theorem auth_error_counterexample :
    mainModel "n".data "oauth:t".data "c".data false "m".data true [] =
      MainResult.normalExit [] ∧
    exitCode (mainModel "n".data "oauth:t".data "c".data false "m".data true []) = 0 := by
  refine ⟨by decide, by decide⟩

/-- C7 (amended): `connect` fails with an uncaught `ConnectionError`
(non-zero exit) when the transport cannot be opened; when the transport
closes immediately after the three handshake lines are sent (zero bytes
received before any content line), the session treats it as a NORMAL
disconnection and the process exits zero — no `AuthError`-class failure
exists in the code. -/
theorem connect_error_semantics (n t c tm : List Char) (chunks : List (List Char))
    (hcfg : configOk n t c = true) :
    (mainModel n t c false tm false chunks = MainResult.connectCrash ∧
      exitCode MainResult.connectCrash = 1) ∧
    (mainModel n t c false tm true [] = MainResult.normalExit [] ∧
      exitCode (MainResult.normalExit []) = 0) := by
  refine ⟨⟨?_, rfl⟩, ⟨?_, rfl⟩⟩ <;> simp [mainModel, hcfg, serveLoop]

theorem connect_error_semantics_witness :
    (mainModel "n".data "oauth:t".data "c".data false "m".data false ["x".data] =
      MainResult.connectCrash ∧
      exitCode MainResult.connectCrash = 1) ∧
    (mainModel "n".data "oauth:t".data "c".data false "m".data true [] =
      MainResult.normalExit [] ∧
      exitCode (MainResult.normalExit []) = 0) :=
  connect_error_semantics "n".data "oauth:t".data "c".data "m".data
    ["x".data] (by decide)

/-- C8: the process exits non-zero, before any connection attempt (the
outcome is `configExit` for every value of `connectOk`), whenever a
required configuration value is missing or malformed (empty identity,
credential or channel, or credential without the `oauth:` prefix);
with valid configuration and an open transport the serve loop runs over
the received chunks until disconnection and the process exits zero. -/
theorem config_exit_semantics (n t c tm : List Char) (conn : Bool)
    (chunks : List (List Char)) :
    (configOk n t c = false →
      mainModel n t c false tm conn chunks = MainResult.configExit ∧
      exitCode MainResult.configExit ≠ 0) ∧
    (configOk n t c = true →
      mainModel n t c false tm true chunks =
        MainResult.normalExit (serveLoop [] chunks) ∧
      exitCode (MainResult.normalExit (serveLoop [] chunks)) = 0) := by
  constructor
  · intro h
    exact ⟨by simp [mainModel, h], by simp [exitCode]⟩
  · intro h
    exact ⟨by simp [mainModel, h], rfl⟩

theorem config_exit_semantics_witness :
    (mainModel [] "oauth:t".data "c".data false "m".data true [] =
        MainResult.configExit ∧
      exitCode MainResult.configExit ≠ 0) ∧
    (mainModel "n".data "oauth:t".data "c".data false "m".data true ["hi\r\n".data] =
        MainResult.normalExit (serveLoop [] ["hi\r\n".data]) ∧
      exitCode (MainResult.normalExit (serveLoop [] ["hi\r\n".data])) = 0) :=
  ⟨(config_exit_semantics [] "oauth:t".data "c".data "m".data true []).1 (by decide),
   (config_exit_semantics "n".data "oauth:t".data "c".data "m".data true
      ["hi\r\n".data]).2 (by decide)⟩

/-- C9: in self-test mode (`NO_CONNECT=1`, no connection attempted — the
outcome is independent of whether the transport could even be opened),
feeding the default payload `"TEST-CODE-1234-ABCD"` through the pipeline
with the default pattern produces exactly one `firstSeen` classification
for the code `TEST-CODE-1234-ABCD`, exactly one notifier invocation, and
the process exits (code 0) without serving. -/
theorem self_test_pipeline :
    mainModel "n".data "oauth:t".data "chan".data true "TEST-CODE-1234-ABCD".data false [] =
      MainResult.selfTestExit [("TEST-CODE-1234-ABCD".data, Classification.firstSeen)] ∧
    notifCount [("TEST-CODE-1234-ABCD".data, Classification.firstSeen)] = 1 ∧
    exitCode (mainModel "n".data "oauth:t".data "chan".data true
      "TEST-CODE-1234-ABCD".data false []) = 0 := by
  refine ⟨by decide, by decide, by decide⟩

/-- C10: an empty line (produced between two consecutive terminators) is
discarded by `if not line: continue` before the keepalive check: it
contributes no event at all — no acknowledgment is sent and no payload is
forwarded — and processing continues with the remaining lines. -/
theorem empty_line_skipped (ls : List (List Char)) :
    linesEvents ([] :: ls) = linesEvents ls ∧ processLine [] = [] := by
  constructor
  · show processLine [] ++ linesEvents ls = linesEvents ls
    rw [processLine, if_pos rfl, List.nil_append]
  · rw [processLine, if_pos rfl]
